import Mathlib

/-
Formal model of Aventura's world-state versioning engine: delta recording,
cascade rollback, copy-on-write branches, snapshot-based reconstruction, and
the experimental-features settings surface.  The engine operations
(recordAndApply, rollbackFrom, resolve, writeThrough, maybeSnapshot,
reconstructAt, deleteBranch) live in repository files that are not part of
the given sources (src/lib/services/rollbackService.ts,
src/lib/stores/story.svelte.ts, src/lib/services/database.ts per
IMPLEMENTATION_PLAN.md); they are modelled here from the design
specification.  The settings definitions at the end are modelled from
src/lib/components/settings/ExperimentalSettings.svelte, which is part of
the given sources.
-/

set_option maxRecDepth 8192

namespace Aventura

/-- Entity identifier (UUIDs in the source, naturals here). -/
abbrev EntityId := Nat

/-- Branch identifier. -/
abbrev BranchId := Nat

/-- Modelled from the spec: the tracked entity kinds (Character, Location,
Item, StoryBeat, LoreEntry). -/
inductive EKind where
  | character
  | location
  | item
  | storyBeat
  | loreEntry
deriving DecidableEq

/-- Modelled from the spec: a representative bundle of per-kind field values
(the spec lists status, relationship, traits, visited/current flags,
quantities, descriptions and so on).  The engine copies, captures and
restores field bundles without interpreting them, so one concrete bundle
stands for all kinds. -/
structure Fields where
  status : String
  detail : String
  amount : Nat
  flagged : Bool
deriving DecidableEq

/-- Modelled from the spec: an entity row. `branchId` says which branch owns
the row, `overridesId` points at the original entity identity this row
supersedes (none marks an original), `tombstone` marks a branch-local
deletion. -/
structure Entity where
  id : EntityId
  kind : EKind
  branchId : BranchId
  overridesId : Option EntityId
  tombstone : Bool
  fields : Fields
deriving DecidableEq

/-- Modelled from the spec: the mutable world state the Delta Recorder and
Rollback Engine operate on — the entity rows, the in-world clock and the
current-location reference. -/
structure WorldState where
  entities : List Entity
  clock : Nat
  currentLocation : Option EntityId
deriving DecidableEq

/-- Modelled from the spec: the `previousState` part of a Delta — per touched
entity the exact pre-mutation field values, plus (unconditionally) the
pre-mutation clock value and current-location reference. -/
structure PrevState where
  entities : List (EntityId × Fields)
  clock : Nat
  currentLocation : Option EntityId
deriving DecidableEq

/-- Modelled from the spec: a structured change-set from the Change Producer,
distinguishing per entity "update with these field values" from "create with
these field values", plus the clock and current-location changes. -/
structure ChangeSet where
  updates : List (EntityId × Fields)
  creates : List (EKind × Fields)
  clockAdvance : Option Nat
  moveTo : Option (Option EntityId)
deriving DecidableEq

/-- Modelled from the spec: a Delta `{changeSet, previousState,
createdEntityIds}` attached to a story entry. -/
structure Delta where
  changeSet : ChangeSet
  previousState : PrevState
  createdEntityIds : List EntityId
deriving DecidableEq

/-- Modelled from the spec: a story entry with its monotone position and its
optional Delta (absent for untracked legacy entries). -/
structure StoryEntry where
  position : Nat
  delta : Option Delta
deriving DecidableEq

/-- Modelled from the spec: a Snapshot — a full self-contained copy of
resolved world state keyed by entry position. -/
structure Snapshot where
  entryPosition : Nat
  state : WorldState
deriving DecidableEq

/-- Modelled from the spec: the per-story state a branch sees — the world
state, the entry list, and the stored snapshots. -/
structure StoryState where
  world : WorldState
  entries : List StoryEntry
  snapshots : List Snapshot
deriving DecidableEq

/-- Entity Store read: first row with the given identity. -/
def storeGet (es : List Entity) (i : EntityId) : Option Entity :=
  es.find? (fun e => decide (i = e.id))

/-- Entity Store update: overwrite the fields of the row with the given
identity (no-op when absent). -/
def storeUpdate (es : List Entity) (i : EntityId) (f : Fields) : List Entity :=
  es.map (fun e => if i = e.id then { e with fields := f } else e)

/-- Entity Store delete by identity. -/
def storeDelete (es : List Entity) (i : EntityId) : List Entity :=
  es.filter (fun e => decide (i ≠ e.id))

/-- Entity Store insert: append a new row. -/
def storeInsert (es : List Entity) (e : Entity) : List Entity :=
  es ++ [e]

/-- A fresh identity, strictly larger than every identity in the store. -/
def freshId (es : List Entity) : Nat :=
  es.foldr (fun e m => max (e.id + 1) m) 0

/-- Modelled from the spec: the `previousState` capture of the Delta
Recorder — for every entity the change-set marks as update, the current
field values before any mutation is applied. -/
def prevOf (ups : List (EntityId × Fields)) (es : List Entity) : List (EntityId × Fields) :=
  ups.filterMap (fun u => (storeGet es u.1).map (fun e0 => (u.1, e0.fields)))

/-- Apply all updates of a change-set through the Entity Store. -/
def applyUpdates (ups : List (EntityId × Fields)) (es : List Entity) : List Entity :=
  ups.foldl (fun es u => storeUpdate es u.1 u.2) es

/-- The net effect of an update batch on the fields of one identity. -/
def chainUpd (ups : List (EntityId × Fields)) (i : EntityId) (f : Fields) : Fields :=
  ups.foldl (fun acc u => if u.1 = i then u.2 else acc) f

/-- Modelled from the spec: apply the creations of a change-set, assigning
each created row a fresh identity, and collect the created identities. -/
def applyCreates (b : BranchId) : List Entity → List (EKind × Fields) → List Entity × List EntityId
  | es, [] => (es, [])
  | es, c :: rest =>
    ((applyCreates b (storeInsert es ⟨freshId es, c.1, b, none, false, c.2⟩) rest).1,
      freshId es :: (applyCreates b (storeInsert es ⟨freshId es, c.1, b, none, false, c.2⟩) rest).2)

/-- Modelled from the spec: the Delta Recorder's
`recordAndApply(entry, changeSet, currentState) -> Delta`.  It snapshots the
pre-mutation values of every updated entity and the clock/location, applies
updates then creations through the Entity Store, applies the clock and
current-location changes, and returns the Delta together with the mutated
world state. -/
def recordAndApply (b : BranchId) (cs : ChangeSet) (w : WorldState) : Delta × WorldState :=
  (⟨cs, ⟨prevOf cs.updates w.entities, w.clock, w.currentLocation⟩,
      (applyCreates b (applyUpdates cs.updates w.entities) cs.creates).2⟩,
    ⟨(applyCreates b (applyUpdates cs.updates w.entities) cs.creates).1,
      cs.clockAdvance.getD w.clock, cs.moveTo.getD w.currentLocation⟩)

/-- Largest entry position occurring in a list of entries. -/
def maxPosition (l : List StoryEntry) : Nat :=
  l.foldr (fun e m => max e.position m) 0

/-- Position assigned to the next recorded entry (positions are contiguous
and strictly increasing per branch). -/
def nextPosition (s : StoryState) : Nat :=
  maxPosition s.entries + 1

/-- Modelled from the spec: one turn of the narrative pipeline — apply a
change-set via the Delta Recorder and persist the resulting Delta on a new
story entry at the next position. -/
def recordStep (b : BranchId) (s : StoryState) (cs : ChangeSet) : StoryState :=
  ⟨(recordAndApply b cs s.world).2,
    s.entries ++ [⟨nextPosition s, some (recordAndApply b cs s.world).1⟩],
    s.snapshots⟩

/-- Apply a sequence of change-sets in order via the Delta Recorder. -/
def applySeq (b : BranchId) : List ChangeSet → StoryState → StoryState
  | [], s => s
  | cs :: rest, s => applySeq b rest (recordStep b s cs)

/-- World-only view of a change-set sequence. -/
def worldSeq (b : BranchId) : List ChangeSet → WorldState → WorldState
  | [], w => w
  | cs :: rest, w => worldSeq b rest (recordAndApply b cs w).2

/-- The entries a change-set sequence appends, starting at position t. -/
def entriesAdded (b : BranchId) : List ChangeSet → WorldState → Nat → List StoryEntry
  | [], _, _ => []
  | cs :: rest, w, t =>
    ⟨t, some (recordAndApply b cs w).1⟩ :: entriesAdded b rest (recordAndApply b cs w).2 (t + 1)

/-- Modelled from the spec: the entity-level undo of one Delta — delete every
entity listed in `createdEntityIds`, then overwrite every entity recorded in
`previousState` with its pre-mutation field values (an update, not a
delete). -/
def undoEntities (d : Delta) (es : List Entity) : List Entity :=
  d.previousState.entities.foldl (fun es p => storeUpdate es p.1 p.2)
    (d.createdEntityIds.foldl (fun es i => storeDelete es i) es)

/-- Undo one selected entry: entries without a Delta (legacy data) skip
entity-level undo. -/
def undoEntry (e : StoryEntry) (es : List Entity) : List Entity :=
  match e.delta with
  | some d => undoEntities d es
  | none => es

/-- Insert an entry into a position-descending list. -/
def insertDesc (e : StoryEntry) : List StoryEntry → List StoryEntry
  | [] => [e]
  | x :: xs => if x.position ≤ e.position then e :: x :: xs else x :: insertDesc e xs

/-- Sort entries by position, descending (reverse chronological). -/
def sortDesc : List StoryEntry → List StoryEntry
  | [] => []
  | x :: xs => insertDesc x (sortDesc xs)

/-- Modelled from the spec: the Rollback Engine's selection — entries with
`position >= target`, ordered by position descending, so later changes are
undone before earlier ones. -/
def selectRollback (t : Nat) (s : StoryState) : List StoryEntry :=
  sortDesc (s.entries.filter (fun e => decide (t ≤ e.position)))

/-- Modelled from the spec: the `previousState` used for the final clock and
current-location restoration — the earliest processed entry that carries a
Delta (the selection is descending, so its reverse is searched front to
back). -/
def restoredPrev (t : Nat) (s : StoryState) : Option PrevState :=
  ((selectRollback t s).reverse.findSome? StoryEntry.delta).map Delta.previousState

/-- Modelled from the spec: the fully applied result of a rollback — all
entity-level undos in descending order, the clock and current location
restored from the earliest processed Delta, the selected entries deleted,
and all snapshots at or after the target purged. -/
def rollbackResult (t : Nat) (s : StoryState) : StoryState :=
  { world :=
      { entities := (selectRollback t s).foldl (fun es e => undoEntry e es) s.world.entities
        clock :=
          match restoredPrev t s with
          | some p => p.clock
          | none => s.world.clock
        currentLocation :=
          match restoredPrev t s with
          | some p => p.currentLocation
          | none => s.world.currentLocation }
    entries := s.entries.filter (fun e => decide (e.position < t))
    snapshots := s.snapshots.filter (fun sn => decide (sn.entryPosition < t)) }

/-- Modelled from the spec: `rollbackFrom(storyId, branchId, position)`.
An invalid target (position beyond the current entry range, so that nothing
is selected) is rejected before any mutation; otherwise the whole rollback
is applied as one atomic unit. -/
def rollbackFrom (t : Nat) (s : StoryState) : Option StoryState :=
  if selectRollback t s = [] then none else some (rollbackResult t s)

/-- Modelled from the spec: a Branch record — tree via parent reference plus
a fork point. -/
structure Branch where
  id : BranchId
  parent : Option BranchId
  forkPosition : Nat
deriving DecidableEq

/-- Modelled from the spec: the branch tree together with all per-branch
entity rows, as seen by the Branch Resolver and the Copy-on-Write
Mutator. -/
structure BranchWorld where
  branches : List Branch
  entities : List Entity
deriving DecidableEq

/-- Parent of a branch, read from its record. -/
def parentOf (bw : BranchWorld) (b : BranchId) : Option BranchId :=
  (bw.branches.find? (fun br => decide (br.id = b))).bind Branch.parent

/-- Walk the parent chain, root first; the fuel bounds the walk by the
number of branches. -/
def lineageAux : Nat → List Branch → BranchId → List BranchId
  | 0, _, b => [b]
  | n + 1, brs, b =>
    match (brs.find? (fun br => decide (br.id = b))).bind Branch.parent with
    | some p => lineageAux n brs p ++ [b]
    | none => [b]

/-- Modelled from the spec: the lineage path from the root branch to the
given branch (parent chain, root first). -/
def branchLineage (bw : BranchWorld) (b : BranchId) : List BranchId :=
  lineageAux bw.branches.length bw.branches b

/-- Original identity of a row: `overridesId` when the row is an override,
its own identity otherwise. -/
def originalId (e : Entity) : EntityId :=
  e.overridesId.getD e.id

/-- The rows of one kind local to one branch, in internal creation order. -/
def rowsOf (bw : BranchWorld) (k : EKind) (b : BranchId) : List Entity :=
  bw.entities.filter (fun e => decide (e.branchId = b ∧ e.kind = k))

/-- Write or overwrite one key of the resolution map. -/
def upsert (m : List (EntityId × Entity)) (key : EntityId) (v : Entity) : List (EntityId × Entity) :=
  if m.any (fun p => decide (p.1 = key)) then
    m.map (fun p => if p.1 = key then (key, v) else p)
  else
    m ++ [(key, v)]

/-- Overlay one branch's rows on the resolution map: every row overwrites
the map entry of its original identity, later rows winning within the
branch. -/
def overlayRows (m : List (EntityId × Entity)) (rows : List Entity) : List (EntityId × Entity) :=
  rows.foldl (fun m r => upsert m (originalId r) r) m

/-- Modelled from the spec: the Branch Resolver's map — for each branch of
the lineage path in root-first order, overlay its local rows, so descendant
branches override ancestors. -/
def resolveMap (bw : BranchWorld) (k : EKind) (path : List BranchId) : List (EntityId × Entity) :=
  path.foldl (fun m x => overlayRows m (rowsOf bw k x)) []

/-- Lookup in the resolution map. -/
def listLookup (m : List (EntityId × Entity)) (o : EntityId) : Option Entity :=
  (m.find? (fun p => decide (p.1 = o))).map Prod.snd

/-- The effective row the resolver computes for one original identity on one
branch. -/
def effectiveRow (bw : BranchWorld) (k : EKind) (b : BranchId) (o : EntityId) : Option Entity :=
  listLookup (resolveMap bw k (branchLineage bw b)) o

/-- Modelled from the spec: `resolve(entityKind, branchId)` — one effective
row per original identity, tombstones filtered out of the returned list. -/
def resolve (bw : BranchWorld) (k : EKind) (b : BranchId) : List Entity :=
  ((resolveMap bw k (branchLineage bw b)).map Prod.snd).filter (fun e => decide (e.tombstone = false))

/-- The branch-local override row a copy-on-write creates: fresh identity,
target branch, `overridesId` pointing at the original identity (even when
the source row was itself an override), fields copied with the requested
change applied. -/
def cowRow (bw : BranchWorld) (e : Entity) (target : BranchId) (f : Fields) : Entity :=
  ⟨freshId bw.entities, e.kind, target, some (originalId e), e.tombstone, f⟩

/-- Modelled from the spec: the Copy-on-Write Mutator's
`writeThrough(entity, targetBranchId)` — mutate in place when the row is
already branch-local, otherwise create a branch-local override row and never
mutate the ancestor row. -/
def writeThrough (bw : BranchWorld) (e : Entity) (target : BranchId) (f : Fields) : BranchWorld :=
  if e.branchId = target then
    { bw with entities := bw.entities.map (fun r => if r.id = e.id then { r with fields := f } else r) }
  else
    { bw with entities := bw.entities ++ [cowRow bw e target f] }

/-- Does the branch have at least one child branch? -/
def hasChildren (bw : BranchWorld) (b : BranchId) : Bool :=
  bw.branches.any (fun br => decide (br.parent = some b))

/-- Modelled from the spec: branch deletion — rejected while the branch has
children; a leaf deletion removes the branch record and cascades deletion of
its branch-local rows. -/
def deleteBranch (bw : BranchWorld) (b : BranchId) : Option BranchWorld :=
  if hasChildren bw b then none
  else some ⟨bw.branches.filter (fun br => decide (br.id ≠ b)),
    bw.entities.filter (fun e => decide (e.branchId ≠ b))⟩

/-- Modelled from the spec: the Snapshot Manager's
`maybeSnapshot(entry, resolvedState, interval)` — fires exactly when the
entry position is a multiple of the interval, materializing the resolved
state. -/
def maybeSnapshot (entry : StoryEntry) (resolved : WorldState) (interval : Nat) : Option Snapshot :=
  if entry.position % interval = 0 then some ⟨entry.position, resolved⟩ else none

/-- The latest stored snapshot at or before a position. -/
def latestSnapshotAtOrBefore : List Snapshot → Nat → Option Snapshot
  | [], _ => none
  | sn :: rest, p =>
    match latestSnapshotAtOrBefore rest p with
    | none => if sn.entryPosition ≤ p then some sn else none
    | some b => if sn.entryPosition ≤ p ∧ b.entryPosition ≤ sn.entryPosition then some sn else some b

/-- Replay one entry's Delta forward (entries without a Delta contribute
nothing). -/
def replayStep (b : BranchId) (w : WorldState) (e : StoryEntry) : WorldState :=
  match e.delta with
  | some d => (recordAndApply b d.changeSet w).2
  | none => w

/-- Modelled from the spec: the full replay-from-zero reconstruction — fold
all deltas at positions up to the target over the position-zero state. -/
def replayTo (b : BranchId) (init : WorldState) (entries : List StoryEntry) (p : Nat) : WorldState :=
  (entries.filter (fun e => decide (e.position ≤ p))).foldl (replayStep b) init

/-- Modelled from the spec: `reconstructAt(branchLineage, position)` — start
from the latest Snapshot at or before the position and replay the deltas
after it; with no snapshot, fall back to a full resolve-and-replay from
position zero. -/
def reconstructAt (b : BranchId) (init : WorldState) (entries : List StoryEntry)
    (snaps : List Snapshot) (p : Nat) : WorldState :=
  match latestSnapshotAtOrBefore snaps p with
  | some sn =>
    (entries.filter (fun e => decide (sn.entryPosition < e.position) && decide (e.position ≤ p))).foldl
      (replayStep b) sn.state
  | none => replayTo b init entries p

/-- The experimental feature toggles, as declared in the settings store
(IMPLEMENTATION_PLAN.md Phase 0A; the store file itself is not among the
given sources). -/
structure ExperimentalFeatures where
  stateTracking : Bool
  rollbackOnDelete : Bool
  lightweightBranches : Bool
  autoSnapshotInterval : Nat
deriving DecidableEq

/-- Modelled from the spec: the defaults — all toggles off, snapshot
interval 20. -/
def defaultExperimentalFeatures : ExperimentalFeatures :=
  ⟨false, false, false, 20⟩

/-- Modelled from ExperimentalSettings.svelte: the Rollback on Delete switch
is disabled exactly when State Tracking is off. -/
def rollbackSwitchDisabled (f : ExperimentalFeatures) : Bool :=
  !f.stateTracking

/-- Modelled from ExperimentalSettings.svelte: the Lightweight Branches
switch is disabled exactly when State Tracking is off. -/
def lightweightSwitchDisabled (f : ExperimentalFeatures) : Bool :=
  !f.stateTracking

/-- Modelled from ExperimentalSettings.svelte: handleRollbackToggle applies
the requested value with no further precondition check. -/
def handleRollbackToggle (f : ExperimentalFeatures) (checked : Bool) : ExperimentalFeatures :=
  { f with rollbackOnDelete := checked }

/-- Modelled from ExperimentalSettings.svelte: handleLightweightBranchesToggle
applies the requested value with no further precondition check. -/
def handleLightweightBranchesToggle (f : ExperimentalFeatures) (checked : Bool) : ExperimentalFeatures :=
  { f with lightweightBranches := checked }

/-- Modelled from ExperimentalSettings.svelte: handleSnapshotIntervalChange
stores the slider value as the configured interval. -/
def handleSnapshotIntervalChange (f : ExperimentalFeatures) (value : Nat) : ExperimentalFeatures :=
  { f with autoSnapshotInterval := value }

/-- Modelled from ExperimentalSettings.svelte: the values the interval
Slider can emit, given its min 5, max 100, step 5 props. -/
abbrev sliderEmittable (v : Nat) : Prop :=
  5 ≤ v ∧ v ≤ 100 ∧ v % 5 = 0

/-- Sample field values used by the concrete check states. -/
def fHealthy : Fields := ⟨"healthy", "ally", 1, false⟩

/-- Sample field values used by the concrete check states. -/
def fInjured : Fields := ⟨"injured", "ally", 1, false⟩

/-- Sample field values used by the concrete check states. -/
def fSword : Fields := ⟨"carried", "sword", 1, true⟩

/-- Concrete world for the round-trip check: one character, clock 5. -/
def ex1W : WorldState := ⟨[⟨1, EKind.character, 0, none, false, fHealthy⟩], 5, some 1⟩

/-- Concrete story state for the round-trip check. -/
def ex1Story : StoryState := ⟨ex1W, [⟨1, none⟩], [⟨1, ex1W⟩]⟩

/-- Concrete change-set sequence for the round-trip check: update the
character and create an item, then update the created item. -/
def ex1css : List ChangeSet :=
  [⟨[(1, fInjured)], [(EKind.item, fSword)], some 6, none⟩,
    ⟨[(2, fInjured)], [], some 7, some (some 2)⟩]

/-- Concrete world for the exclusivity check. -/
def ex2W : WorldState := ⟨[⟨1, EKind.character, 0, none, false, fHealthy⟩], 10, some 1⟩

/-- Concrete change-set for the exclusivity check: one update and one
creation. -/
def ex2CS : ChangeSet := ⟨[(1, fInjured)], [(EKind.item, fSword)], some 11, none⟩

/-- A trivial no-op delta used by concrete entries. -/
def dNull : Delta := ⟨⟨[], [], none, none⟩, ⟨[], 0, none⟩, []⟩

/-- Concrete story state for the atomicity check. -/
def ex3S : StoryState :=
  ⟨⟨[⟨1, EKind.character, 0, none, false, fHealthy⟩], 3, some 1⟩,
    [⟨1, some dNull⟩, ⟨2, some dNull⟩], [⟨2, ex1W⟩]⟩

/-- The fully applied rollback of the atomicity check state. -/
def ex3R : StoryState := rollbackResult 2 ex3S

/-- Concrete story state for the ordering check. -/
def ex7S : StoryState :=
  ⟨⟨[⟨1, EKind.character, 0, none, false, fHealthy⟩], 9, some 1⟩,
    [⟨1, some dNull⟩, ⟨2, some dNull⟩, ⟨3, some dNull⟩], []⟩

/-- Concrete story state for the invalid-target check. -/
def ex8S : StoryState :=
  ⟨⟨[], 0, none⟩, [⟨1, some dNull⟩, ⟨2, some dNull⟩], []⟩

/-- Concrete branch world with a child branch, for the deletion guard. -/
def ex8bw : BranchWorld :=
  ⟨[⟨0, none, 0⟩, ⟨1, some 0, 3⟩],
    [⟨1, EKind.character, 0, none, false, fHealthy⟩,
      ⟨2, EKind.character, 1, some 1, false, fInjured⟩]⟩

/-- Concrete branch world for the isolation check: a root branch owning one
character and a child branch forked from it. -/
def ex4bw : BranchWorld :=
  ⟨[⟨0, none, 0⟩, ⟨1, some 0, 2⟩],
    [⟨1, EKind.character, 0, none, false, fHealthy⟩]⟩

/-- The inherited row written through on the child branch. -/
def ex4e : Entity := ⟨1, EKind.character, 0, none, false, fHealthy⟩

/-- Concrete branch world for the precedence check: lineage 0 -> 1 -> 2 with
an original on 0 and override rows on 1 and 2. -/
def ex5bw : BranchWorld :=
  ⟨[⟨0, none, 0⟩, ⟨1, some 0, 1⟩, ⟨2, some 1, 2⟩],
    [⟨10, EKind.character, 0, none, false, fHealthy⟩,
      ⟨11, EKind.character, 1, some 10, false, fInjured⟩,
      ⟨12, EKind.character, 2, some 10, false, fSword⟩]⟩

/-- The original row of the precedence check. -/
def ex5r0 : Entity := ⟨10, EKind.character, 0, none, false, fHealthy⟩

/-- The middle branch's override row of the precedence check. -/
def ex5rA : Entity := ⟨11, EKind.character, 1, some 10, false, fInjured⟩

/-- The leaf branch's override row of the precedence check. -/
def ex5rB : Entity := ⟨12, EKind.character, 2, some 10, false, fSword⟩

/-- Concrete baseline world for the snapshot-equivalence check. -/
def ex6init : WorldState := ⟨[], 0, none⟩

/-- Concrete entries for the snapshot-equivalence check. -/
def ex6entries : List StoryEntry :=
  [⟨1, some ⟨⟨[], [(EKind.character, fHealthy)], some 1, none⟩, ⟨[], 0, none⟩, [0]⟩⟩,
    ⟨2, some ⟨⟨[(0, fInjured)], [], some 2, some (some 0)⟩, ⟨[(0, fHealthy)], 1, none⟩, []⟩⟩]

/-- A consistent snapshot at position 1 for the snapshot-equivalence
check. -/
def ex6snaps : List Snapshot := [⟨1, replayTo 0 ex6init ex6entries 1⟩]

/-- Concrete entry for the snapshot-interval check. -/
def ex9e : StoryEntry := ⟨40, none⟩

/-- Concrete resolved state for the snapshot-interval check. -/
def ex9w : WorldState := ⟨[], 4, none⟩

/-- Concrete settings value for the settings checks. -/
def ex9f : ExperimentalFeatures := ⟨true, false, false, 20⟩

/-- Every identity in the store is strictly below the fresh identity. -/
theorem freshId_spec (es : List Entity) : ∀ e ∈ es, e.id < freshId es := by
  induction es with
  | nil => intro e h; cases h
  | cons a l ih =>
    intro e h
    rcases List.mem_cons.mp h with rfl | h
    · exact lt_of_lt_of_le (Nat.lt_succ_self _) (le_max_left _ _)
    · exact lt_of_lt_of_le (ih e h) (le_max_right _ _)

/-- Updating fields never changes the identity list of the store. -/
theorem storeUpdate_id_map (es : List Entity) (i : EntityId) (f : Fields) :
    (storeUpdate es i f).map Entity.id = es.map Entity.id := by
  unfold storeUpdate
  rw [List.map_map]
  apply List.map_congr_left
  intro e _
  by_cases h : i = e.id <;> simp [h]

/-- Updating fields never changes the fresh identity. -/
theorem freshId_storeUpdate (es : List Entity) (i : EntityId) (f : Fields) :
    freshId (storeUpdate es i f) = freshId es := by
  induction es with
  | nil => rfl
  | cons a l ih =>
    have h1 : (if i = a.id then { a with fields := f } else a).id = a.id := by
      by_cases h : i = a.id <;> simp [h]
    calc freshId (storeUpdate (a :: l) i f)
        = max ((if i = a.id then { a with fields := f } else a).id + 1)
            (freshId (storeUpdate l i f)) := rfl
      _ = max (a.id + 1) (freshId l) := by rw [h1, ih]
      _ = freshId (a :: l) := rfl

/-- Unfolding one update of an update batch. -/
theorem applyUpdates_cons (u : EntityId × Fields) (rest : List (EntityId × Fields)) (es : List Entity) :
    applyUpdates (u :: rest) es = applyUpdates rest (storeUpdate es u.1 u.2) := rfl

/-- Applying a batch of updates never changes the fresh identity. -/
theorem applyUpdates_freshId (ups : List (EntityId × Fields)) (es : List Entity) :
    freshId (applyUpdates ups es) = freshId es := by
  induction ups generalizing es with
  | nil => rfl
  | cons u rest ih => rw [applyUpdates_cons, ih, freshId_storeUpdate]

/-- Inserting a row can only grow the fresh identity. -/
theorem freshId_le_storeInsert (es : List Entity) (e : Entity) :
    freshId es ≤ freshId (storeInsert es e) := by
  induction es with
  | nil => exact Nat.zero_le _
  | cons a l ih => exact max_le_max (Nat.le_refl _) ih

/-- Every identity applyCreates hands out is at least the fresh identity of
the store it started from. -/
theorem applyCreates_ids_ge (b : BranchId) (cs : List (EKind × Fields)) :
    ∀ es : List Entity, ∀ i ∈ (applyCreates b es cs).2, freshId es ≤ i := by
  induction cs with
  | nil => intro es i h; simp [applyCreates] at h
  | cons c rest ih =>
    intro es i h
    simp only [applyCreates] at h
    rcases List.mem_cons.mp h with rfl | h
    · exact Nat.le_refl _
    · exact Nat.le_trans (freshId_le_storeInsert es _) (ih _ i h)

/-- Every key of the captured previous state names a row that already
existed in the store. -/
theorem prevOf_mem (ups : List (EntityId × Fields)) (es : List Entity) :
    ∀ p ∈ prevOf ups es, ∃ e ∈ es, e.id = p.1 := by
  intro p hp
  unfold prevOf at hp
  rw [List.mem_filterMap] at hp
  obtain ⟨u, _, he⟩ := hp
  cases hg : storeGet es u.1 with
  | none => rw [hg] at he; simp at he
  | some e0 =>
    rw [hg] at he
    simp only [Option.map_some'] at he
    have he2 : (u.1, e0.fields) = p := Option.some.inj he
    have hmem := List.mem_of_find?_eq_some hg
    have hpred := List.find?_some hg
    rw [decide_eq_true_eq] at hpred
    exact ⟨e0, hmem, by rw [← he2, ← hpred]⟩

/-- C2: for every Delta produced by recordAndApply, the identities listed in
createdEntityIds and the identities appearing in previousState are disjoint —
an entity is either created or updated by a given entry, never both. -/
theorem delta_created_previous_disjoint (b : BranchId) (cs : ChangeSet) (w : WorldState) :
    ∀ i ∈ (recordAndApply b cs w).1.createdEntityIds,
      i ∉ ((recordAndApply b cs w).1.previousState.entities.map Prod.fst) := by
  intro i hi hmem
  simp only [recordAndApply] at hi hmem
  have h1 : freshId (applyUpdates cs.updates w.entities) ≤ i :=
    applyCreates_ids_ge b cs.creates _ i hi
  rw [applyUpdates_freshId] at h1
  rw [List.mem_map] at hmem
  obtain ⟨p, hp, hfst⟩ := hmem
  obtain ⟨e, he, hid⟩ := prevOf_mem cs.updates w.entities p hp
  have h2 := freshId_spec w.entities e he
  rw [← hfst, ← hid] at h1
  exact absurd h2 (not_lt.mpr h1)

/-- C2 witness: a concrete created identity is absent from the concrete
previous state. -/
theorem delta_created_previous_disjoint_check :
    (2 : Nat) ∉ ((recordAndApply 0 ex2CS ex2W).1.previousState.entities.map Prod.fst) :=
  delta_created_previous_disjoint 0 ex2CS ex2W 2 (by decide)

/-- Unfolding one step of the net field effect. -/
theorem chainUpd_cons (u : EntityId × Fields) (rest : List (EntityId × Fields)) (i : EntityId) (f : Fields) :
    chainUpd (u :: rest) i f = chainUpd rest i (if u.1 = i then u.2 else f) := rfl

/-- An update batch acts on each row through its net field effect. -/
theorem applyUpdates_eq_map (ups : List (EntityId × Fields)) (es : List Entity) :
    applyUpdates ups es = es.map (fun e => { e with fields := chainUpd ups e.id e.fields }) := by
  induction ups generalizing es with
  | nil =>
    show es = es.map (fun e => { e with fields := chainUpd [] e.id e.fields })
    have h : (fun (e : Entity) => { e with fields := chainUpd [] e.id e.fields }) = id := by
      funext e; rfl
    rw [h, List.map_id]
  | cons u rest ih =>
    rw [applyUpdates_cons, ih]
    unfold storeUpdate
    rw [List.map_map]
    apply List.map_congr_left
    intro e _
    by_cases h : u.1 = e.id
    · simp [Function.comp, h, chainUpd_cons]
    · simp [Function.comp, h, chainUpd_cons]

/-- A batch that never mentions an identity leaves its fields alone. -/
theorem chainUpd_not_mentioned (ups : List (EntityId × Fields)) (i : EntityId) (f : Fields)
    (h : ∀ u ∈ ups, u.1 ≠ i) : chainUpd ups i f = f := by
  induction ups generalizing f with
  | nil => rfl
  | cons u rest ih =>
    rw [chainUpd_cons, if_neg (h u (List.mem_cons_self u rest))]
    exact ih f (fun v hv => h v (List.mem_cons_of_mem u hv))

/-- Unfolding the previous-state capture when the updated row exists. -/
theorem prevOf_cons_some (u : EntityId × Fields) (rest : List (EntityId × Fields))
    (es : List Entity) (e0 : Entity) (h : storeGet es u.1 = some e0) :
    prevOf (u :: rest) es = (u.1, e0.fields) :: prevOf rest es := by
  simp [prevOf, List.filterMap_cons, h]

/-- Unfolding the previous-state capture when the updated row is absent. -/
theorem prevOf_cons_none (u : EntityId × Fields) (rest : List (EntityId × Fields))
    (es : List Entity) (h : storeGet es u.1 = none) :
    prevOf (u :: rest) es = prevOf rest es := by
  simp [prevOf, List.filterMap_cons, h]

/-- The captured previous state never mentions identities the batch does not
mention. -/
theorem chainUpd_prevOf_not (ups : List (EntityId × Fields)) (es : List Entity) (i : EntityId)
    (g : Fields) (h : ∀ u ∈ ups, u.1 ≠ i) : chainUpd (prevOf ups es) i g = g := by
  apply chainUpd_not_mentioned
  intro p hp
  unfold prevOf at hp
  rw [List.mem_filterMap] at hp
  obtain ⟨u, hu, he⟩ := hp
  cases hg : storeGet es u.1 with
  | none => rw [hg] at he; simp at he
  | some e0 =>
    rw [hg] at he
    simp only [Option.map_some'] at he
    have he2 : (u.1, e0.fields) = p := Option.some.inj he
    cases he2
    exact h u hu

/-- Restoring the captured previous state yields the pre-batch fields of any
mentioned identity. -/
theorem chainUpd_prevOf_mem (ups : List (EntityId × Fields)) (es : List Entity) (i : EntityId)
    (e : Entity) (hget : storeGet es i = some e) :
    ∀ g : Fields, (∃ u ∈ ups, u.1 = i) → chainUpd (prevOf ups es) i g = e.fields := by
  induction ups with
  | nil =>
    intro g hmem
    obtain ⟨u, hu, _⟩ := hmem
    cases hu
  | cons u rest ih =>
    intro g hmem
    by_cases h : u.1 = i
    · have hg : storeGet es u.1 = some e := by rw [h]; exact hget
      rw [prevOf_cons_some u rest es e hg, chainUpd_cons]
      simp only [if_pos h]
      by_cases hr : ∃ v ∈ rest, v.1 = i
      · exact ih e.fields hr
      · push_neg at hr
        exact chainUpd_prevOf_not rest es i e.fields hr
    · obtain ⟨v, hv, hvi⟩ := hmem
      rcases List.mem_cons.mp hv with rfl | hv2
      · exact absurd hvi h
      cases hg : storeGet es u.1 with
      | none =>
        rw [prevOf_cons_none u rest es hg]
        exact ih g ⟨v, hv2, hvi⟩
      | some e0 =>
        rw [prevOf_cons_some u rest es e0 hg, chainUpd_cons]
        simp only [if_neg h]
        exact ih g ⟨v, hv2, hvi⟩

/-- In a store with no duplicate identities, lookup of a member's identity
finds exactly that member. -/
theorem storeGet_nodup : ∀ es : List Entity, (es.map Entity.id).Nodup →
    ∀ e ∈ es, storeGet es e.id = some e := by
  intro es
  induction es with
  | nil => intro _ e he; cases he
  | cons a l ih =>
    intro h e he
    simp only [List.map_cons, List.nodup_cons] at h
    rcases List.mem_cons.mp he with rfl | he2
    · exact List.find?_cons_of_pos _ (by simp)
    · have hne : e.id ≠ a.id := by
        intro heq
        exact h.1 (heq ▸ List.mem_map_of_mem Entity.id he2)
      unfold storeGet
      rw [List.find?_cons_of_neg _ (by simp [hne])]
      exact ih h.2 e he2

/-- Restoring the captured previous state on top of the applied batch is the
identity on each row of a duplicate-free store. -/
theorem restore_pointwise (ups : List (EntityId × Fields)) (es : List Entity)
    (h : (es.map Entity.id).Nodup) (e : Entity) (he : e ∈ es) :
    ({ e with fields := chainUpd (prevOf ups es) e.id (chainUpd ups e.id e.fields) } : Entity) = e := by
  by_cases hm : ∃ u ∈ ups, u.1 = e.id
  · rw [chainUpd_prevOf_mem ups es e.id e (storeGet_nodup es h e he) _ hm]
  · push_neg at hm
    rw [chainUpd_prevOf_not ups es e.id _ hm, chainUpd_not_mentioned ups e.id e.fields hm]

/-- Applying an update batch and then restoring its captured previous state
returns a duplicate-free store to its original value. -/
theorem applyUpdates_restore (ups : List (EntityId × Fields)) (es : List Entity)
    (h : (es.map Entity.id).Nodup) :
    applyUpdates (prevOf ups es) (applyUpdates ups es) = es := by
  rw [applyUpdates_eq_map ups es, applyUpdates_eq_map (prevOf ups es), List.map_map]
  have hcongr : ∀ e ∈ es,
      ((fun x => { x with fields := chainUpd (prevOf ups es) x.id x.fields }) ∘
        (fun e => { e with fields := chainUpd ups e.id e.fields })) e = id e := by
    intro e he
    simp only [Function.comp_apply, id_eq]
    exact restore_pointwise ups es h e he
  rw [List.map_congr_left hcongr, List.map_id]

/-- Deletions by identity commute. -/
theorem storeDelete_comm (es : List Entity) (i j : EntityId) :
    storeDelete (storeDelete es i) j = storeDelete (storeDelete es j) i := by
  simp only [storeDelete, List.filter_filter]
  congr 1
  funext e
  rw [Bool.and_comm]

/-- A deletion slides out of a deletion fold. -/
theorem foldl_storeDelete_out (ids : List EntityId) (es : List Entity) (n : EntityId) :
    ids.foldl (fun es i => storeDelete es i) (storeDelete es n) =
      storeDelete (ids.foldl (fun es i => storeDelete es i) es) n := by
  induction ids generalizing es with
  | nil => rfl
  | cons j rest ih =>
    show rest.foldl _ (storeDelete (storeDelete es n) j) = _
    rw [storeDelete_comm]
    exact ih (storeDelete es j)

/-- Deleting an identity no row carries is a no-op. -/
theorem storeDelete_noop (es : List Entity) (n : EntityId) (h : ∀ e ∈ es, e.id ≠ n) :
    storeDelete es n = es := by
  induction es with
  | nil => rfl
  | cons a l ih =>
    have ha : a.id ≠ n := h a (List.mem_cons_self a l)
    simp only [storeDelete, List.filter_cons]
    have hd : decide (n ≠ a.id) = true := by
      simp only [decide_eq_true_eq]
      exact fun hh => ha hh.symm
    rw [hd]
    simp only [if_true]
    have ihh := ih (fun e he => h e (List.mem_cons_of_mem a he))
    simp only [storeDelete] at ihh
    rw [ihh]

/-- Deletion distributes over append. -/
theorem storeDelete_append (es l2 : List Entity) (n : EntityId) :
    storeDelete (es ++ l2) n = storeDelete es n ++ storeDelete l2 n := by
  simp [storeDelete, List.filter_append]

/-- Deleting every identity applyCreates handed out returns the store to its
pre-creation value. -/
theorem applyCreates_delete_undo (b : BranchId) (cs : List (EKind × Fields)) :
    ∀ es : List Entity,
      ((applyCreates b es cs).2).foldl (fun es i => storeDelete es i) (applyCreates b es cs).1 = es := by
  induction cs with
  | nil => intro es; rfl
  | cons c rest ih =>
    intro es
    simp only [applyCreates]
    show (applyCreates b (storeInsert es ⟨freshId es, c.1, b, none, false, c.2⟩) rest).2.foldl _
      (storeDelete (applyCreates b (storeInsert es ⟨freshId es, c.1, b, none, false, c.2⟩) rest).1
        (freshId es)) = es
    rw [foldl_storeDelete_out, ih (storeInsert es ⟨freshId es, c.1, b, none, false, c.2⟩)]
    unfold storeInsert
    rw [storeDelete_append,
      storeDelete_noop es (freshId es) (fun e he => Nat.ne_of_lt (freshId_spec es e he))]
    simp [storeDelete]

/-- Inserting a row with an unused identity keeps the identity list
duplicate-free. -/
theorem storeInsert_nodup (es : List Entity) (e : Entity)
    (h : (es.map Entity.id).Nodup) (hfresh : ∀ x ∈ es, x.id ≠ e.id) :
    ((storeInsert es e).map Entity.id).Nodup := by
  unfold storeInsert
  rw [List.map_append]
  apply List.Nodup.append h (List.nodup_singleton _)
  intro a ha hb
  simp only [List.map_cons, List.map_nil, List.mem_singleton] at hb
  rw [List.mem_map] at ha
  obtain ⟨x, hx, rfl⟩ := ha
  exact hfresh x hx hb

/-- applyCreates keeps the identity list duplicate-free. -/
theorem applyCreates_nodup (b : BranchId) (cs : List (EKind × Fields)) :
    ∀ es : List Entity, (es.map Entity.id).Nodup →
      (((applyCreates b es cs).1).map Entity.id).Nodup := by
  induction cs with
  | nil => intro es h; exact h
  | cons c rest ih =>
    intro es h
    simp only [applyCreates]
    exact ih _ (storeInsert_nodup es _ h (fun x hx => Nat.ne_of_lt (freshId_spec es x hx)))

/-- An update batch never changes the identity list. -/
theorem applyUpdates_id_map (ups : List (EntityId × Fields)) :
    ∀ es : List Entity, (applyUpdates ups es).map Entity.id = es.map Entity.id := by
  induction ups with
  | nil => intro es; rfl
  | cons u rest ih => intro es; rw [applyUpdates_cons, ih, storeUpdate_id_map]

/-- Undoing the Delta recordAndApply produced restores the entity rows
exactly, on any duplicate-free store. -/
theorem recordAndApply_undo (b : BranchId) (cs : ChangeSet) (w : WorldState)
    (h : (w.entities.map Entity.id).Nodup) :
    undoEntities (recordAndApply b cs w).1 (recordAndApply b cs w).2.entities = w.entities := by
  simp only [recordAndApply, undoEntities]
  rw [applyCreates_delete_undo]
  exact applyUpdates_restore cs.updates w.entities h

/-- recordAndApply keeps the identity list duplicate-free. -/
theorem recordAndApply_nodup (b : BranchId) (cs : ChangeSet) (w : WorldState)
    (h : (w.entities.map Entity.id).Nodup) :
    (((recordAndApply b cs w).2.entities).map Entity.id).Nodup := by
  simp only [recordAndApply]
  exact applyCreates_nodup b cs.creates _ (by rw [applyUpdates_id_map]; exact h)

/-- Every entry position is bounded by the maximum position. -/
theorem position_le_max (l : List StoryEntry) : ∀ e ∈ l, e.position ≤ maxPosition l := by
  induction l with
  | nil => intro e h; cases h
  | cons a xs ih =>
    intro e h
    rcases List.mem_cons.mp h with rfl | h
    · exact le_max_left _ _
    · exact le_trans (ih e h) (le_max_right _ _)

/-- The maximum position of an appended singleton. -/
theorem maxPosition_append_single (l : List StoryEntry) (e : StoryEntry) :
    maxPosition (l ++ [e]) = max (maxPosition l) e.position := by
  induction l with
  | nil => show max e.position 0 = max 0 e.position; omega
  | cons a xs ih =>
    show max a.position (maxPosition (xs ++ [e])) = max (max a.position (maxPosition xs)) e.position
    rw [ih]
    omega

/-- Recording one entry advances the next position by one. -/
theorem nextPosition_recordStep (b : BranchId) (s : StoryState) (cs : ChangeSet) :
    nextPosition (recordStep b s cs) = nextPosition s + 1 := by
  show maxPosition (s.entries ++ [⟨nextPosition s, some (recordAndApply b cs s.world).1⟩]) + 1 =
    nextPosition s + 1
  rw [maxPosition_append_single]
  show max (maxPosition s.entries) (maxPosition s.entries + 1) + 1 = maxPosition s.entries + 1 + 1
  omega

/-- A recorded sequence appends its entries after the existing ones. -/
theorem applySeq_entries (b : BranchId) : ∀ (css : List ChangeSet) (s : StoryState),
    (applySeq b css s).entries = s.entries ++ entriesAdded b css s.world (nextPosition s) := by
  intro css
  induction css with
  | nil => intro s; simp [applySeq, entriesAdded]
  | cons cs rest ih =>
    intro s
    show (applySeq b rest (recordStep b s cs)).entries = _
    rw [ih (recordStep b s cs), nextPosition_recordStep]
    show (s.entries ++ [⟨nextPosition s, some (recordAndApply b cs s.world).1⟩]) ++
        entriesAdded b rest (recordAndApply b cs s.world).2 (nextPosition s + 1) =
      s.entries ++ entriesAdded b (cs :: rest) s.world (nextPosition s)
    rw [List.append_assoc]
    rfl

/-- The recorded sequence mutates the world exactly as its world-only
fold. -/
theorem applySeq_world (b : BranchId) : ∀ (css : List ChangeSet) (s : StoryState),
    (applySeq b css s).world = worldSeq b css s.world := by
  intro css
  induction css with
  | nil => intro s; rfl
  | cons cs rest ih => intro s; exact ih (recordStep b s cs)

/-- Recording a sequence leaves the snapshots untouched. -/
theorem applySeq_snapshots (b : BranchId) : ∀ (css : List ChangeSet) (s : StoryState),
    (applySeq b css s).snapshots = s.snapshots := by
  intro css
  induction css with
  | nil => intro s; rfl
  | cons cs rest ih => intro s; exact ih (recordStep b s cs)

/-- Every appended entry sits at or after the starting position. -/
theorem entriesAdded_pos_ge (b : BranchId) : ∀ (css : List ChangeSet) (w : WorldState) (t : Nat),
    ∀ e ∈ entriesAdded b css w t, t ≤ e.position := by
  intro css
  induction css with
  | nil => intro w t e h; cases h
  | cons cs rest ih =>
    intro w t e h
    rcases List.mem_cons.mp h with rfl | h
    · exact Nat.le_refl _
    · exact Nat.le_trans (Nat.le_succ t) (ih _ (t + 1) e h)

/-- The appended entries carry strictly increasing positions. -/
theorem entriesAdded_ascending (b : BranchId) : ∀ (css : List ChangeSet) (w : WorldState) (t : Nat),
    (entriesAdded b css w t).Pairwise (fun a c => a.position < c.position) := by
  intro css
  induction css with
  | nil => intro w t; exact List.Pairwise.nil
  | cons cs rest ih =>
    intro w t
    refine List.Pairwise.cons ?_ (ih _ (t + 1))
    intro y hy
    exact Nat.lt_of_succ_le (entriesAdded_pos_ge b rest _ (t + 1) y hy)

/-- A nonempty sequence appends at least one entry. -/
theorem entriesAdded_ne_nil (b : BranchId) (css : List ChangeSet) (w : WorldState) (t : Nat)
    (h : css ≠ []) : entriesAdded b css w t ≠ [] := by
  cases css with
  | nil => exact absurd rfl h
  | cons cs rest => simp [entriesAdded]

/-- Existing entries all sit strictly before the next position. -/
theorem position_lt_nextPosition (s : StoryState) : ∀ e ∈ s.entries, e.position < nextPosition s := by
  intro e he
  exact Nat.lt_succ_of_le (position_le_max s.entries e he)

/-- A decidable filter over a list with no satisfying member is empty. -/
theorem filter_decide_nil {α : Type} (p : α → Prop) [DecidablePred p] (l : List α)
    (h : ∀ x ∈ l, ¬ p x) : l.filter (fun x => decide (p x)) = [] := by
  induction l with
  | nil => rfl
  | cons a xs ih =>
    have hd : decide (p a) = false := decide_eq_false (h a (List.mem_cons_self a xs))
    simp [List.filter_cons, hd, ih (fun x hx => h x (List.mem_cons_of_mem a hx))]

/-- A decidable filter over a list of satisfying members is the list
itself. -/
theorem filter_decide_all {α : Type} (p : α → Prop) [DecidablePred p] (l : List α)
    (h : ∀ x ∈ l, p x) : l.filter (fun x => decide (p x)) = l := by
  induction l with
  | nil => rfl
  | cons a xs ih =>
    have hd : decide (p a) = true := decide_eq_true (h a (List.mem_cons_self a xs))
    simp [List.filter_cons, hd, ih (fun x hx => h x (List.mem_cons_of_mem a hx))]

/-- Descending insertion permutes to a cons. -/
theorem insertDesc_perm (e : StoryEntry) (l : List StoryEntry) :
    List.Perm (insertDesc e l) (e :: l) := by
  induction l with
  | nil => exact List.Perm.refl _
  | cons x xs ih =>
    simp only [insertDesc]
    split
    · exact List.Perm.refl _
    · exact (ih.cons x).trans (List.Perm.swap e x xs)

/-- Descending sort permutes to the original list. -/
theorem sortDesc_perm (l : List StoryEntry) : List.Perm (sortDesc l) l := by
  induction l with
  | nil => exact List.Perm.refl _
  | cons x xs ih => exact (insertDesc_perm x (sortDesc xs)).trans (ih.cons x)

/-- Inserting an entry below everything pushes it to the back. -/
theorem insertDesc_all_lt (e : StoryEntry) (m : List StoryEntry)
    (h : ∀ y ∈ m, e.position < y.position) : insertDesc e m = m ++ [e] := by
  induction m with
  | nil => rfl
  | cons z m2 ih =>
    have hz : ¬ z.position ≤ e.position :=
      not_le.mpr (h z (List.mem_cons_self z m2))
    simp only [insertDesc, if_neg hz]
    rw [ih (fun y hy => h y (List.mem_cons_of_mem z hy))]
    rfl

/-- Sorting a strictly ascending list descending reverses it. -/
theorem sortDesc_of_ascending : ∀ l : List StoryEntry,
    l.Pairwise (fun a c => a.position < c.position) → sortDesc l = l.reverse := by
  intro l
  induction l with
  | nil => intro _; rfl
  | cons x xs ih =>
    intro h
    rw [List.pairwise_cons] at h
    show insertDesc x (sortDesc xs) = (x :: xs).reverse
    rw [ih h.2, insertDesc_all_lt x xs.reverse (fun y hy => h.1 y (List.mem_reverse.mp hy)),
      List.reverse_cons]

/-- Undoing the appended entries in reverse order restores the pre-sequence
entity rows. -/
theorem seq_undo (b : BranchId) : ∀ (css : List ChangeSet) (w : WorldState) (t : Nat),
    (w.entities.map Entity.id).Nodup →
    ((entriesAdded b css w t).reverse).foldl (fun es e => undoEntry e es)
      (worldSeq b css w).entities = w.entities := by
  intro css
  induction css with
  | nil => intro w t _; rfl
  | cons cs rest ih =>
    intro w t h
    show ((⟨t, some (recordAndApply b cs w).1⟩ ::
        entriesAdded b rest (recordAndApply b cs w).2 (t + 1)).reverse).foldl _
      (worldSeq b (cs :: rest) w).entities = w.entities
    rw [List.reverse_cons, List.foldl_append,
      show worldSeq b (cs :: rest) w = worldSeq b rest (recordAndApply b cs w).2 from rfl,
      ih (recordAndApply b cs w).2 (t + 1) (recordAndApply_nodup b cs w h)]
    show undoEntities (recordAndApply b cs w).1 (recordAndApply b cs w).2.entities = w.entities
    exact recordAndApply_undo b cs w h

/-- C1: for every sequence of change-sets applied in order via the Delta
Recorder, rolling back from the position of the first appended entry
restores every entity's fields, the in-world clock and the current-location
reference to their pre-sequence values, and removes all appended entries
(surviving snapshots are exactly those strictly before the target). -/
theorem deltaRecorder_rollback_roundTrip (b : BranchId) (css : List ChangeSet) (s : StoryState)
    (hcss : css ≠ []) (hids : (s.world.entities.map Entity.id).Nodup) :
    rollbackFrom (nextPosition s) (applySeq b css s) =
      some ⟨s.world, s.entries,
        s.snapshots.filter (fun sn => decide (sn.entryPosition < nextPosition s))⟩ := by
  cases css with
  | nil => exact absurd rfl hcss
  | cons cs rest =>
    have hentries := applySeq_entries b (cs :: rest) s
    have hworld := applySeq_world b (cs :: rest) s
    have hsnaps := applySeq_snapshots b (cs :: rest) s
    have hold : ∀ e ∈ s.entries, ¬ nextPosition s ≤ e.position :=
      fun e he => not_le.mpr (position_lt_nextPosition s e he)
    have hnew := entriesAdded_pos_ge b (cs :: rest) s.world (nextPosition s)
    have hfilter : (applySeq b (cs :: rest) s).entries.filter
        (fun e => decide (nextPosition s ≤ e.position)) =
        entriesAdded b (cs :: rest) s.world (nextPosition s) := by
      rw [hentries, List.filter_append,
        filter_decide_nil (fun e => nextPosition s ≤ e.position) s.entries hold,
        List.nil_append]
      exact filter_decide_all (fun e => nextPosition s ≤ e.position)
        (entriesAdded b (cs :: rest) s.world (nextPosition s)) hnew
    have hsel : selectRollback (nextPosition s) (applySeq b (cs :: rest) s) =
        (entriesAdded b (cs :: rest) s.world (nextPosition s)).reverse := by
      unfold selectRollback
      rw [hfilter]
      exact sortDesc_of_ascending _ (entriesAdded_ascending b (cs :: rest) s.world (nextPosition s))
    have hq : rollbackResult (nextPosition s) (applySeq b (cs :: rest) s) =
        ⟨s.world, s.entries,
          s.snapshots.filter (fun sn => decide (sn.entryPosition < nextPosition s))⟩ := by
      have hent2 : (selectRollback (nextPosition s) (applySeq b (cs :: rest) s)).foldl
          (fun es e => undoEntry e es) (applySeq b (cs :: rest) s).world.entities =
          s.world.entities := by
        rw [hsel, hworld]
        exact seq_undo b (cs :: rest) s.world (nextPosition s) hids
      have hprev : restoredPrev (nextPosition s) (applySeq b (cs :: rest) s) =
          some (recordAndApply b cs s.world).1.previousState := by
        unfold restoredPrev
        rw [hsel, List.reverse_reverse]
        rfl
      have hfiltEntries : (applySeq b (cs :: rest) s).entries.filter
          (fun e => decide (e.position < nextPosition s)) = s.entries := by
        rw [hentries, List.filter_append,
          filter_decide_all (fun e => e.position < nextPosition s) s.entries
            (position_lt_nextPosition s)]
        rw [filter_decide_nil (fun e => e.position < nextPosition s)
            (entriesAdded b (cs :: rest) s.world (nextPosition s))
            (fun e he => not_lt.mpr (hnew e he)),
          List.append_nil]
      unfold rollbackResult
      rw [hprev, hent2, hfiltEntries, hsnaps]
      rfl
    unfold rollbackFrom
    rw [hsel, hq]
    rw [if_neg (by simp [entriesAdded])]

/-- C1 witness: the concrete two-step sequence rolls back to the concrete
starting state. -/
theorem deltaRecorder_rollback_roundTrip_check :
    rollbackFrom (nextPosition ex1Story) (applySeq 0 ex1css ex1Story) =
      some ⟨ex1Story.world, ex1Story.entries,
        ex1Story.snapshots.filter (fun sn => decide (sn.entryPosition < nextPosition ex1Story))⟩ :=
  deltaRecorder_rollback_roundTrip 0 ex1css ex1Story (by decide) (by decide)

/-- Membership in the rollback selection. -/
theorem mem_selectRollback (t : Nat) (s : StoryState) (e : StoryEntry) :
    e ∈ selectRollback t s ↔ e ∈ s.entries ∧ t ≤ e.position := by
  unfold selectRollback
  rw [(sortDesc_perm _).mem_iff, List.mem_filter, decide_eq_true_eq]

/-- The selection is empty when every entry sits before the target. -/
theorem selectRollback_nil (t : Nat) (s : StoryState)
    (h : ∀ e ∈ s.entries, e.position < t) : selectRollback t s = [] := by
  unfold selectRollback
  rw [filter_decide_nil (fun e => t ≤ e.position) s.entries (fun e he => not_le.mpr (h e he))]
  rfl

/-- Descending insertion preserves descending order. -/
theorem insertDesc_sorted (e : StoryEntry) : ∀ l : List StoryEntry,
    l.Pairwise (fun a c => c.position ≤ a.position) →
    (insertDesc e l).Pairwise (fun a c => c.position ≤ a.position) := by
  intro l
  induction l with
  | nil => intro _; simp [insertDesc]
  | cons x xs ih =>
    intro h
    rw [List.pairwise_cons] at h
    by_cases hc : x.position ≤ e.position
    · simp only [insertDesc, if_pos hc]
      refine List.Pairwise.cons ?_ (List.pairwise_cons.mpr h)
      intro y hy
      rcases List.mem_cons.mp hy with rfl | hy2
      · exact hc
      · exact le_trans (h.1 y hy2) hc
    · simp only [insertDesc, if_neg hc]
      refine List.Pairwise.cons ?_ (ih h.2)
      intro y hy
      rcases List.mem_cons.mp ((insertDesc_perm e xs).mem_iff.mp hy) with rfl | hy2
      · exact le_of_not_le hc
      · exact h.1 y hy2

/-- Descending sort yields a position-descending list. -/
theorem sortDesc_sorted : ∀ l : List StoryEntry,
    (sortDesc l).Pairwise (fun a c => c.position ≤ a.position) := by
  intro l
  induction l with
  | nil => exact List.Pairwise.nil
  | cons x xs ih => exact insertDesc_sorted x (sortDesc xs) ih

/-- With duplicate-free positions the descending sort is strictly
descending. -/
theorem sortDesc_sorted_strict (l : List StoryEntry)
    (h : (l.map StoryEntry.position).Nodup) :
    (sortDesc l).Pairwise (fun a c => c.position < a.position) := by
  have h1 := sortDesc_sorted l
  have h2 : ((sortDesc l).map StoryEntry.position).Nodup :=
    ((sortDesc_perm l).map StoryEntry.position).nodup_iff.mpr h
  have h3 : (sortDesc l).Pairwise (fun a c => a.position ≠ c.position) :=
    List.pairwise_map.mp h2
  exact (h1.and h3).imp (fun hp => lt_of_le_of_ne hp.1 (fun hq => hp.2 hq.symm))

/-- A failed findSome? means no element produces a value. -/
theorem findSome_none_all {α β : Type} (f : α → Option β) : ∀ l : List α,
    l.findSome? f = none → ∀ a ∈ l, f a = none := by
  intro l
  induction l with
  | nil => intro _ a ha; cases ha
  | cons x xs ih =>
    intro h a ha
    cases hx : f x with
    | some b => simp [List.findSome?, hx] at h
    | none =>
      have h2 : xs.findSome? f = none := by
        simpa [List.findSome?, hx] using h
      rcases List.mem_cons.mp ha with rfl | ha2
      · exact hx
      · exact ih h2 a ha2

/-- On a position-ascending entry list, findSome? over the deltas returns
the Delta of the minimum-position delta-bearing entry. -/
theorem findSome_delta_min : ∀ l : List StoryEntry,
    l.Pairwise (fun a c => a.position ≤ c.position) →
    ∀ d : Delta, l.findSome? StoryEntry.delta = some d →
    ∃ e, e ∈ l ∧ e.delta = some d ∧
      ∀ e2 ∈ l, e2.delta.isSome = true → e.position ≤ e2.position := by
  intro l
  induction l with
  | nil => intro _ d h; cases h
  | cons x xs ih =>
    intro hp d h
    rw [List.pairwise_cons] at hp
    cases hx : x.delta with
    | some dx =>
      have hdx : dx = d := by simpa [List.findSome?, hx] using h
      subst hdx
      refine ⟨x, List.mem_cons_self x xs, hx, ?_⟩
      intro e2 he2 _
      rcases List.mem_cons.mp he2 with rfl | he2t
      · exact Nat.le_refl _
      · exact hp.1 e2 he2t
    | none =>
      have h2 : xs.findSome? StoryEntry.delta = some d := by
        simpa [List.findSome?, hx] using h
      obtain ⟨e, hemem, hed, hemin⟩ := ih hp.2 d h2
      refine ⟨e, List.mem_cons_of_mem x hemem, hed, ?_⟩
      intro e2 he2 hd2
      rcases List.mem_cons.mp he2 with rfl | he2t
      · rw [hx] at hd2; simp at hd2
      · exact hemin e2 he2t hd2

/-- C3: rollbackFrom is atomic — it returns none exactly when the target is
invalid (beyond the current range), leaving the state untouched, and
whenever it succeeds the returned state reflects every step at once: the
selected entries deleted, the snapshots at or after the target purged, the
entity rows equal to the full chain of undos, and the clock and current
location restored from the minimum-position delta-bearing selected entry's
previousState (or unchanged when no selected entry carries a Delta). -/
theorem rollbackFrom_atomic (s : StoryState) (t : Nat) :
    (rollbackFrom t s = none ↔ ∀ e ∈ s.entries, e.position < t) ∧
    (∀ s2, rollbackFrom t s = some s2 →
      (∀ e, e ∈ s2.entries ↔ e ∈ s.entries ∧ e.position < t) ∧
      (∀ sn, sn ∈ s2.snapshots ↔ sn ∈ s.snapshots ∧ sn.entryPosition < t) ∧
      s2.world.entities =
        (selectRollback t s).foldl (fun es e => undoEntry e es) s.world.entities ∧
      ((∃ e d, e ∈ s.entries ∧ t ≤ e.position ∧ e.delta = some d ∧
          (∀ e2 ∈ s.entries, t ≤ e2.position → e2.delta.isSome = true →
            e.position ≤ e2.position) ∧
          s2.world.clock = d.previousState.clock ∧
          s2.world.currentLocation = d.previousState.currentLocation) ∨
        ((∀ e ∈ s.entries, t ≤ e.position → e.delta = none) ∧
          s2.world.clock = s.world.clock ∧
          s2.world.currentLocation = s.world.currentLocation))) := by
  constructor
  · unfold rollbackFrom
    by_cases h : selectRollback t s = []
    · rw [if_pos h]
      constructor
      · intro _ e he
        by_contra hlt
        push_neg at hlt
        have hmem : e ∈ selectRollback t s := (mem_selectRollback t s e).mpr ⟨he, hlt⟩
        rw [h] at hmem
        cases hmem
      · intro _; rfl
    · rw [if_neg h]
      constructor
      · intro hc; exact absurd hc (Option.some_ne_none _)
      · intro hall; exact absurd (selectRollback_nil t s hall) h
  · intro s2 hs2
    unfold rollbackFrom at hs2
    by_cases h : selectRollback t s = []
    · rw [if_pos h] at hs2; cases hs2
    · rw [if_neg h] at hs2
      cases Option.some.inj hs2
      refine ⟨?_, ?_, rfl, ?_⟩
      · intro e
        simp [rollbackResult, List.mem_filter, decide_eq_true_eq]
      · intro sn
        simp [rollbackResult, List.mem_filter, decide_eq_true_eq]
      · cases hfind : (selectRollback t s).reverse.findSome? StoryEntry.delta with
        | some d =>
          left
          have hasc : ((selectRollback t s).reverse).Pairwise
              (fun a c => a.position ≤ c.position) := by
            rw [List.pairwise_reverse]
            exact sortDesc_sorted _
          obtain ⟨e, hemem, hedelta, hemin⟩ :=
            findSome_delta_min _ hasc d hfind
          have hein := (mem_selectRollback t s e).mp (List.mem_reverse.mp hemem)
          have hprev : restoredPrev t s = some d.previousState := by
            unfold restoredPrev
            rw [hfind]
            rfl
          refine ⟨e, d, hein.1, hein.2, hedelta, ?_, ?_, ?_⟩
          · intro e2 he2 ht2 hd2
            exact hemin e2
              (List.mem_reverse.mpr ((mem_selectRollback t s e2).mpr ⟨he2, ht2⟩)) hd2
          · show (rollbackResult t s).world.clock = d.previousState.clock
            unfold rollbackResult
            rw [hprev]
          · show (rollbackResult t s).world.currentLocation = d.previousState.currentLocation
            unfold rollbackResult
            rw [hprev]
        | none =>
          right
          have hprev : restoredPrev t s = none := by
            unfold restoredPrev
            rw [hfind]
            rfl
          refine ⟨?_, ?_, ?_⟩
          · intro e he ht
            exact findSome_none_all StoryEntry.delta _ hfind e
              (List.mem_reverse.mpr ((mem_selectRollback t s e).mpr ⟨he, ht⟩))
          · show (rollbackResult t s).world.clock = s.world.clock
            unfold rollbackResult
            rw [hprev]
          · show (rollbackResult t s).world.currentLocation = s.world.currentLocation
            unfold rollbackResult
            rw [hprev]

/-- C3 witness: the concrete successful rollback carries the full chain of
undos. -/
theorem rollbackFrom_atomic_check :
    ex3R.world.entities =
      (selectRollback 2 ex3S).foldl (fun es e => undoEntry e es) ex3S.world.entities :=
  ((rollbackFrom_atomic ex3S 2).2 ex3R (by decide)).2.2.1

/-- C7: the rollback selection is processed in strictly descending position
order, it contains exactly the entries at or after the target, and on
success the clock and current location are restored from the previousState
of the earliest processed entry — the minimum-position selected entry, not
any intermediate value. -/
theorem rollbackFrom_order_and_clock (s : StoryState) (t : Nat)
    (hpos : (s.entries.map StoryEntry.position).Nodup)
    (hdeltas : ∀ e ∈ s.entries, t ≤ e.position → e.delta.isSome = true) :
    (selectRollback t s).Pairwise (fun a c => c.position < a.position) ∧
    (∀ e, e ∈ selectRollback t s ↔ e ∈ s.entries ∧ t ≤ e.position) ∧
    (∀ s2, rollbackFrom t s = some s2 →
      ∃ e d, e ∈ s.entries ∧ t ≤ e.position ∧ e.delta = some d ∧
        (∀ e2 ∈ s.entries, t ≤ e2.position → e.position ≤ e2.position) ∧
        s2.world.clock = d.previousState.clock ∧
        s2.world.currentLocation = d.previousState.currentLocation) := by
  refine ⟨?_, fun e => mem_selectRollback t s e, ?_⟩
  · apply sortDesc_sorted_strict
    exact ((List.filter_sublist _).map StoryEntry.position).nodup hpos
  · intro s2 hs2
    unfold rollbackFrom at hs2
    by_cases h : selectRollback t s = []
    · rw [if_pos h] at hs2; cases hs2
    · rw [if_neg h] at hs2
      cases Option.some.inj hs2
      have hselrev : (selectRollback t s).reverse ≠ [] := by simpa using h
      obtain ⟨x, rest2, hx⟩ := List.exists_cons_of_ne_nil hselrev
      have hxmem : x ∈ selectRollback t s := by
        rw [← List.mem_reverse, hx]
        exact List.mem_cons_self x rest2
      have hxin := (mem_selectRollback t s x).mp hxmem
      obtain ⟨d, hd⟩ := Option.isSome_iff_exists.mp (hdeltas x hxin.1 hxin.2)
      have hprev : restoredPrev t s = some d.previousState := by
        unfold restoredPrev
        rw [hx]
        have hf : List.findSome? StoryEntry.delta (x :: rest2) = some d := by
          simp [List.findSome?, hd]
        rw [hf]
        rfl
      refine ⟨x, d, hxin.1, hxin.2, hd, ?_, ?_, ?_⟩
      · intro e2 he2 ht2
        have he2rev : e2 ∈ (selectRollback t s).reverse :=
          List.mem_reverse.mpr ((mem_selectRollback t s e2).mpr ⟨he2, ht2⟩)
        rw [hx] at he2rev
        rcases List.mem_cons.mp he2rev with rfl | he2tail
        · exact Nat.le_refl _
        · have hasc : ((selectRollback t s).reverse).Pairwise
              (fun a c => a.position ≤ c.position) := by
            rw [List.pairwise_reverse]
            exact sortDesc_sorted _
          rw [hx] at hasc
          exact (List.pairwise_cons.mp hasc).1 e2 he2tail
      · show (rollbackResult t s).world.clock = d.previousState.clock
        unfold rollbackResult
        rw [hprev]
      · show (rollbackResult t s).world.currentLocation = d.previousState.currentLocation
        unfold rollbackResult
        rw [hprev]

/-- C7 witness: the selection membership at a concrete entry. -/
theorem rollbackFrom_order_and_clock_check :
    ((⟨2, some dNull⟩ : StoryEntry) ∈ selectRollback 2 ex7S ↔
      (⟨2, some dNull⟩ : StoryEntry) ∈ ex7S.entries ∧
        2 ≤ (⟨2, some dNull⟩ : StoryEntry).position) :=
  (rollbackFrom_order_and_clock ex7S 2 (by decide) (by decide)).2.1 ⟨2, some dNull⟩

/-- C8: an invalid rollback target (position beyond the current entry
range) is rejected before any mutation with no side effects; deleting a
branch with at least one child is rejected; deleting a leaf branch succeeds
and cascades deletion of its branch-local rows. -/
theorem invalid_target_and_deletion_guard :
    (∀ (s : StoryState) (t : Nat), (∀ e ∈ s.entries, e.position < t) → rollbackFrom t s = none) ∧
    (∀ (bw : BranchWorld) (b : BranchId), hasChildren bw b = true → deleteBranch bw b = none) ∧
    (∀ (bw : BranchWorld) (b : BranchId), hasChildren bw b = false →
      deleteBranch bw b = some ⟨bw.branches.filter (fun br => decide (br.id ≠ b)),
        bw.entities.filter (fun e => decide (e.branchId ≠ b))⟩) := by
  refine ⟨?_, ?_, ?_⟩
  · intro s t h
    unfold rollbackFrom
    rw [if_pos (selectRollback_nil t s h)]
  · intro bw b h
    unfold deleteBranch
    rw [if_pos h]
  · intro bw b h
    unfold deleteBranch
    rw [if_neg (by simp [h])]

/-- C8 witness: the concrete out-of-range rollback is rejected, deleting the
branch with a child is rejected, and deleting the leaf branch cascades. -/
theorem invalid_target_and_deletion_guard_check :
    rollbackFrom 9 ex8S = none ∧ deleteBranch ex8bw 0 = none ∧
      deleteBranch ex8bw 1 = some ⟨ex8bw.branches.filter (fun br => decide (br.id ≠ 1)),
        ex8bw.entities.filter (fun e => decide (e.branchId ≠ 1))⟩ :=
  ⟨invalid_target_and_deletion_guard.1 ex8S 9 (by decide),
    invalid_target_and_deletion_guard.2.1 ex8bw 0 (by decide),
    invalid_target_and_deletion_guard.2.2 ex8bw 1 (by decide)⟩

/-- writeThrough never touches the branch records. -/
theorem writeThrough_branches (bw : BranchWorld) (e : Entity) (target : BranchId) (f : Fields) :
    (writeThrough bw e target f).branches = bw.branches := by
  unfold writeThrough
  split <;> rfl

/-- writeThrough never changes any lineage path. -/
theorem branchLineage_writeThrough (bw : BranchWorld) (e : Entity) (target : BranchId)
    (f : Fields) (p : BranchId) :
    branchLineage (writeThrough bw e target f) p = branchLineage bw p := by
  unfold branchLineage
  rw [writeThrough_branches]

/-- A copy-on-write append is invisible to every other branch's row set. -/
theorem rowsOf_writeThrough (bw : BranchWorld) (e : Entity) (B : BranchId) (f : Fields)
    (k : EKind) (x : BranchId) (hinh : e.branchId ≠ B) (hx : x ≠ B) :
    rowsOf (writeThrough bw e B f) k x = rowsOf bw k x := by
  unfold writeThrough
  rw [if_neg hinh]
  unfold rowsOf
  simp only
  rw [List.filter_append]
  have hBx : ¬ B = x := fun h => hx h.symm
  have hsingle : [cowRow bw e B f].filter (fun e2 => decide (e2.branchId = x ∧ e2.kind = k)) = [] := by
    simp [cowRow, hBx]
  rw [hsingle, List.append_nil]

/-- The resolver map only depends on the row sets along the path. -/
theorem resolveMap_congr_aux (bw1 bw2 : BranchWorld) (k : EKind) :
    ∀ (path : List BranchId) (m : List (EntityId × Entity)),
    (∀ x ∈ path, rowsOf bw1 k x = rowsOf bw2 k x) →
    path.foldl (fun m x => overlayRows m (rowsOf bw1 k x)) m =
      path.foldl (fun m x => overlayRows m (rowsOf bw2 k x)) m := by
  intro path
  induction path with
  | nil => intro m _; rfl
  | cons x rest ih =>
    intro m h
    show rest.foldl _ (overlayRows m (rowsOf bw1 k x)) =
      rest.foldl _ (overlayRows m (rowsOf bw2 k x))
    rw [h x (List.mem_cons_self x rest)]
    exact ih _ (fun y hy => h y (List.mem_cons_of_mem x hy))

/-- C4: writing through to an inherited entity on branch B leaves the parent
branch's resolved view unchanged — the parent resolves to the pre-write
values — and only appends a branch-local override row, never mutating the
ancestor rows. -/
theorem writeThrough_parent_isolation (bw : BranchWorld) (e : Entity) (B p : BranchId)
    (f : Fields) (k : EKind)
    (_hpar : parentOf bw B = some p)
    (hinh : e.branchId ≠ B)
    (hnotin : B ∉ branchLineage bw p) :
    resolve (writeThrough bw e B f) k p = resolve bw k p ∧
    (writeThrough bw e B f).entities = bw.entities ++ [cowRow bw e B f] := by
  constructor
  · unfold resolve
    rw [branchLineage_writeThrough]
    have hmap : resolveMap (writeThrough bw e B f) k (branchLineage bw p) =
        resolveMap bw k (branchLineage bw p) := by
      unfold resolveMap
      exact resolveMap_congr_aux (writeThrough bw e B f) bw k (branchLineage bw p) []
        (fun x hx => rowsOf_writeThrough bw e B f k x hinh
          (fun hxB => absurd (hxB ▸ hx) hnotin))
    rw [hmap]
  · unfold writeThrough
    rw [if_neg hinh]

/-- C4 witness: the concrete child-branch write leaves the concrete parent
resolution untouched. -/
theorem writeThrough_parent_isolation_check :
    resolve (writeThrough ex4bw ex4e 1 fInjured) EKind.character 0 =
      resolve ex4bw EKind.character 0 :=
  (writeThrough_parent_isolation ex4bw ex4e 1 0 fInjured EKind.character
    (by decide) (by decide) (by decide)).1

/-- Replacing the entries of one key is invisible to lookups of other
keys. -/
theorem listLookup_map_other (key o : EntityId) (v : Entity) (h : o ≠ key) :
    ∀ m : List (EntityId × Entity),
    listLookup (m.map (fun p => if p.1 = key then (key, v) else p)) o = listLookup m o := by
  have hko : ¬ key = o := fun hh => h hh.symm
  intro m
  induction m with
  | nil => rfl
  | cons p rest ih =>
    simp only [List.map_cons]
    by_cases hp : p.1 = key
    · rw [if_pos hp]
      have hpo : ¬ p.1 = o := by rw [hp]; exact hko
      unfold listLookup
      rw [List.find?_cons_of_neg _ (by simp [hko]),
        List.find?_cons_of_neg _ (by simp [hpo])]
      exact ih
    · rw [if_neg hp]
      by_cases ho : p.1 = o
      · unfold listLookup
        rw [List.find?_cons_of_pos _ (by simp [ho]), List.find?_cons_of_pos _ (by simp [ho])]
      · unfold listLookup
        rw [List.find?_cons_of_neg _ (by simp [ho]), List.find?_cons_of_neg _ (by simp [ho])]
        exact ih

/-- Lookup in a mapped overwrite of a present key finds the new value. -/
theorem find_map_upsert (key : EntityId) (v : Entity) :
    ∀ m : List (EntityId × Entity), m.any (fun p => decide (p.1 = key)) = true →
    listLookup (m.map (fun p => if p.1 = key then (key, v) else p)) key = some v := by
  intro m
  induction m with
  | nil => intro h; simp at h
  | cons p rest ih =>
    intro h
    by_cases hp : p.1 = key
    · simp only [List.map_cons, if_pos hp]
      unfold listLookup
      rw [List.find?_cons_of_pos _ (by simp)]
      rfl
    · simp only [List.map_cons, if_neg hp]
      unfold listLookup
      rw [List.find?_cons_of_neg _ (by simp [hp])]
      have h2 : rest.any (fun q => decide (q.1 = key)) = true := by
        simp only [List.any_cons] at h
        simpa [hp] using h
      exact ih h2

/-- Appending a differently keyed pair is invisible to a lookup. -/
theorem listLookup_append_single_other (key o : EntityId) (v : Entity) (h : o ≠ key) :
    ∀ m : List (EntityId × Entity), listLookup (m ++ [(key, v)]) o = listLookup m o := by
  have hko : ¬ key = o := fun hh => h hh.symm
  intro m
  induction m with
  | nil =>
    unfold listLookup
    rw [List.nil_append, List.find?_cons_of_neg _ (by simp [hko])]
  | cons p rest ih =>
    by_cases ho : p.1 = o
    · unfold listLookup
      rw [List.cons_append, List.find?_cons_of_pos _ (by simp [ho]),
        List.find?_cons_of_pos _ (by simp [ho])]
    · unfold listLookup
      rw [List.cons_append, List.find?_cons_of_neg _ (by simp [ho]),
        List.find?_cons_of_neg _ (by simp [ho])]
      exact ih

/-- Lookup of the key of an appended pair, when the preceding map never
carries it. -/
theorem listLookup_append_right (key : EntityId) (v : Entity) :
    ∀ m : List (EntityId × Entity), (∀ p ∈ m, p.1 ≠ key) →
    listLookup (m ++ [(key, v)]) key = some v := by
  intro m
  induction m with
  | nil =>
    intro _
    unfold listLookup
    rw [List.nil_append, List.find?_cons_of_pos _ (by simp)]
    rfl
  | cons p rest ih =>
    intro h
    have hp : ¬ p.1 = key := h p (List.mem_cons_self p rest)
    unfold listLookup
    rw [List.cons_append, List.find?_cons_of_neg _ (by simp [hp])]
    have := ih (fun q hq => h q (List.mem_cons_of_mem p hq))
    unfold listLookup at this
    exact this

/-- Upserting a key makes its lookup return the new value. -/
theorem listLookup_upsert_self (m : List (EntityId × Entity)) (key : EntityId) (v : Entity) :
    listLookup (upsert m key v) key = some v := by
  unfold upsert
  by_cases h : m.any (fun p => decide (p.1 = key)) = true
  · rw [if_pos h]
    exact find_map_upsert key v m h
  · rw [if_neg h]
    have hnone : ∀ p ∈ m, p.1 ≠ key := by
      intro p hp hc
      exact h (List.any_eq_true.mpr ⟨p, hp, decide_eq_true hc⟩)
    exact listLookup_append_right key v m hnone

/-- Upserting a key is invisible to lookups of other keys. -/
theorem listLookup_upsert_other (m : List (EntityId × Entity)) (key o : EntityId) (v : Entity)
    (h : o ≠ key) : listLookup (upsert m key v) o = listLookup m o := by
  unfold upsert
  by_cases ha : m.any (fun p => decide (p.1 = key)) = true
  · rw [if_pos ha]
    exact listLookup_map_other key o v h m
  · rw [if_neg ha]
    exact listLookup_append_single_other key o v h m

/-- Overlaying one branch's rows after the rest of the fold. -/
theorem overlayRows_append_single (m : List (EntityId × Entity)) (rows : List Entity) (r : Entity) :
    overlayRows m (rows ++ [r]) = upsert (overlayRows m rows) (originalId r) r := by
  unfold overlayRows
  rw [List.foldl_append]
  rfl

/-- Overlaying rows that never carry a key leaves its lookup unchanged. -/
theorem listLookup_overlay_miss (o : EntityId) :
    ∀ (rows : List Entity) (m : List (EntityId × Entity)),
    (∀ r ∈ rows, originalId r ≠ o) →
    listLookup (overlayRows m rows) o = listLookup m o := by
  intro rows
  induction rows using List.reverseRecOn with
  | nil => intro m _; rfl
  | append_singleton rs r ih =>
    intro m h
    rw [overlayRows_append_single,
      listLookup_upsert_other _ _ _ _ (Ne.symm (h r (by simp)))]
    exact ih m (fun x hx => h x (List.mem_append_left _ hx))

/-- Overlaying rows whose only row keyed o is v makes the lookup of o
return v. -/
theorem listLookup_overlay_hit (o : EntityId) (v : Entity) :
    ∀ (rows : List Entity) (m : List (EntityId × Entity)),
    v ∈ rows → originalId v = o → (∀ r ∈ rows, originalId r = o → r = v) →
    listLookup (overlayRows m rows) o = some v := by
  intro rows
  induction rows using List.reverseRecOn with
  | nil => intro m hv _ _; cases hv
  | append_singleton rs r ih =>
    intro m hv hkey hall
    rw [overlayRows_append_single]
    by_cases hr : originalId r = o
    · have hrv : r = v := hall r (by simp) hr
      subst hrv
      rw [hr]
      exact listLookup_upsert_self _ o r
    · have hvrs : v ∈ rs := by
        rcases List.mem_append.mp hv with h1 | h1
        · exact h1
        · rw [List.mem_singleton] at h1
          rw [h1] at hkey
          exact absurd hkey hr
      rw [listLookup_upsert_other _ _ _ _ (fun ho => hr ho.symm)]
      exact ih m hvrs hkey (fun x hx hxo => hall x (List.mem_append_left _ hx) hxo)

/-- A successful lookup names a value of the map. -/
theorem listLookup_mem (m : List (EntityId × Entity)) (o : EntityId) (v : Entity)
    (h : listLookup m o = some v) : v ∈ m.map Prod.snd := by
  unfold listLookup at h
  cases hf : m.find? (fun p => decide (p.1 = o)) with
  | none => rw [hf] at h; cases h
  | some p =>
    rw [hf] at h
    simp only [Option.map_some'] at h
    cases Option.some.inj h
    exact List.mem_map_of_mem Prod.snd (List.mem_of_find?_eq_some hf)

/-- C5: along a lineage root -> A -> B where A and B both hold an override
row for the same original entity, resolution returns the version of the
branch nearest to the resolution target: B's row for B, A's row for A, and
the original for the root. -/
theorem resolve_override_precedence (bw : BranchWorld) (k : EKind) (o : EntityId)
    (root A B : BranchId) (r0 rA rB : Entity)
    (hrootA : root ≠ A) (hrootB : root ≠ B) (hAB : A ≠ B)
    (hlinB : branchLineage bw B = [root, A, B])
    (hlinA : branchLineage bw A = [root, A])
    (hlinR : branchLineage bw root = [root])
    (h0mem : r0 ∈ bw.entities) (h0b : r0.branchId = root) (h0k : r0.kind = k)
    (h0o : r0.overridesId = none) (h0id : r0.id = o) (h0t : r0.tombstone = false)
    (hAmem : rA ∈ bw.entities) (hAb : rA.branchId = A) (hAk : rA.kind = k)
    (hAo : rA.overridesId = some o) (hAt : rA.tombstone = false)
    (hBmem : rB ∈ bw.entities) (hBb : rB.branchId = B) (hBk : rB.kind = k)
    (hBo : rB.overridesId = some o) (hBt : rB.tombstone = false)
    (huniq : ∀ r ∈ bw.entities, r.kind = k →
      (r.branchId = root ∨ r.branchId = A ∨ r.branchId = B) →
      originalId r = o → r = r0 ∨ r = rA ∨ r = rB) :
    effectiveRow bw k B o = some rB ∧ effectiveRow bw k A o = some rA ∧
    effectiveRow bw k root o = some r0 ∧
    rB ∈ resolve bw k B ∧ rA ∈ resolve bw k A ∧ r0 ∈ resolve bw k root := by
  have hkB : originalId rB = o := by simp [originalId, hBo]
  have hkA : originalId rA = o := by simp [originalId, hAo]
  have hk0 : originalId r0 = o := by simp [originalId, h0o, h0id]
  have hmemB : rB ∈ rowsOf bw k B := by
    unfold rowsOf
    rw [List.mem_filter]
    exact ⟨hBmem, by simp [hBb, hBk]⟩
  have hmemA : rA ∈ rowsOf bw k A := by
    unfold rowsOf
    rw [List.mem_filter]
    exact ⟨hAmem, by simp [hAb, hAk]⟩
  have hmem0 : r0 ∈ rowsOf bw k root := by
    unfold rowsOf
    rw [List.mem_filter]
    exact ⟨h0mem, by simp [h0b, h0k]⟩
  have hallB : ∀ r ∈ rowsOf bw k B, originalId r = o → r = rB := by
    intro r hr hro
    obtain ⟨hrmem, hcond⟩ := List.mem_filter.mp hr
    rw [decide_eq_true_eq] at hcond
    rcases huniq r hrmem hcond.2 (Or.inr (Or.inr hcond.1)) hro with rfl | rfl | rfl
    · rw [h0b] at hcond; exact absurd hcond.1 hrootB
    · rw [hAb] at hcond; exact absurd hcond.1 hAB
    · rfl
  have hallA : ∀ r ∈ rowsOf bw k A, originalId r = o → r = rA := by
    intro r hr hro
    obtain ⟨hrmem, hcond⟩ := List.mem_filter.mp hr
    rw [decide_eq_true_eq] at hcond
    rcases huniq r hrmem hcond.2 (Or.inr (Or.inl hcond.1)) hro with rfl | rfl | rfl
    · rw [h0b] at hcond; exact absurd hcond.1 hrootA
    · rfl
    · rw [hBb] at hcond; exact absurd hcond.1.symm hAB
  have hall0 : ∀ r ∈ rowsOf bw k root, originalId r = o → r = r0 := by
    intro r hr hro
    obtain ⟨hrmem, hcond⟩ := List.mem_filter.mp hr
    rw [decide_eq_true_eq] at hcond
    rcases huniq r hrmem hcond.2 (Or.inl hcond.1) hro with rfl | rfl | rfl
    · rfl
    · rw [hAb] at hcond; exact absurd hcond.1.symm hrootA
    · rw [hBb] at hcond; exact absurd hcond.1.symm hrootB
  have hfoldB : resolveMap bw k (branchLineage bw B) =
      overlayRows (overlayRows (overlayRows [] (rowsOf bw k root)) (rowsOf bw k A))
        (rowsOf bw k B) := by
    rw [hlinB]; rfl
  have hfoldA : resolveMap bw k (branchLineage bw A) =
      overlayRows (overlayRows [] (rowsOf bw k root)) (rowsOf bw k A) := by
    rw [hlinA]; rfl
  have hfoldR : resolveMap bw k (branchLineage bw root) =
      overlayRows [] (rowsOf bw k root) := by
    rw [hlinR]; rfl
  have hlookB : effectiveRow bw k B o = some rB := by
    unfold effectiveRow
    rw [hfoldB]
    exact listLookup_overlay_hit o rB (rowsOf bw k B) _ hmemB hkB hallB
  have hlookA : effectiveRow bw k A o = some rA := by
    unfold effectiveRow
    rw [hfoldA]
    exact listLookup_overlay_hit o rA (rowsOf bw k A) _ hmemA hkA hallA
  have hlookR : effectiveRow bw k root o = some r0 := by
    unfold effectiveRow
    rw [hfoldR]
    exact listLookup_overlay_hit o r0 (rowsOf bw k root) _ hmem0 hk0 hall0
  refine ⟨hlookB, hlookA, hlookR, ?_, ?_, ?_⟩
  · unfold resolve
    rw [List.mem_filter]
    exact ⟨listLookup_mem _ o rB hlookB, by simp [hBt]⟩
  · unfold resolve
    rw [List.mem_filter]
    exact ⟨listLookup_mem _ o rA hlookA, by simp [hAt]⟩
  · unfold resolve
    rw [List.mem_filter]
    exact ⟨listLookup_mem _ o r0 hlookR, by simp [h0t]⟩

/-- C5 witness: the concrete three-branch lineage resolves to the nearest
override on each branch. -/
theorem resolve_override_precedence_check :
    effectiveRow ex5bw EKind.character 2 10 = some ex5rB := by
  have h := resolve_override_precedence ex5bw EKind.character 10 0 1 2 ex5r0 ex5rA ex5rB
    (by decide) (by decide) (by decide) (by decide) (by decide) (by decide)
    (by decide) (by decide) (by decide) (by decide) (by decide) (by decide)
    (by decide) (by decide) (by decide) (by decide) (by decide) (by decide)
    (by decide) (by decide) (by decide) (by decide)
    (by decide)
  exact h.1

/-- The latest snapshot at or before a position is a stored snapshot at or
before that position. -/
theorem latestSnapshot_spec : ∀ (snaps : List Snapshot) (p : Nat) (sn : Snapshot),
    latestSnapshotAtOrBefore snaps p = some sn → sn ∈ snaps ∧ sn.entryPosition ≤ p := by
  intro snaps
  induction snaps with
  | nil => intro p sn h; cases h
  | cons a rest ih =>
    intro p sn h
    cases hrec : latestSnapshotAtOrBefore rest p with
    | none =>
      simp only [latestSnapshotAtOrBefore, hrec] at h
      by_cases ha : a.entryPosition ≤ p
      · rw [if_pos ha] at h
        have hbs := Option.some.inj h
        subst hbs
        exact ⟨List.mem_cons_self a rest, ha⟩
      · rw [if_neg ha] at h
        cases h
    | some b =>
      simp only [latestSnapshotAtOrBefore, hrec] at h
      by_cases ha : a.entryPosition ≤ p ∧ b.entryPosition ≤ a.entryPosition
      · rw [if_pos ha] at h
        have hbs := Option.some.inj h
        subst hbs
        exact ⟨List.mem_cons_self a rest, ha.1⟩
      · rw [if_neg ha] at h
        have hbs := Option.some.inj h
        subst hbs
        obtain ⟨hb1, hb2⟩ := ih p b hrec
        exact ⟨List.mem_cons_of_mem a hb1, hb2⟩

/-- Splitting a position filter of a position-sorted entry list at an
intermediate bound. -/
theorem filter_le_split (q p : Nat) (hq : q ≤ p) : ∀ l : List StoryEntry,
    l.Pairwise (fun a c => a.position ≤ c.position) →
    l.filter (fun e => decide (e.position ≤ p)) =
      l.filter (fun e => decide (e.position ≤ q)) ++
        l.filter (fun e => decide (q < e.position) && decide (e.position ≤ p)) := by
  intro l
  induction l with
  | nil => intro _; rfl
  | cons x xs ih =>
    intro hs
    rw [List.pairwise_cons] at hs
    by_cases hxq : x.position ≤ q
    · have hxp : x.position ≤ p := le_trans hxq hq
      have hnm : ¬ (q < x.position) := not_lt.mpr hxq
      simp [List.filter_cons, hxq, hxp, hnm, ih hs.2]
    · have hgt : q < x.position := not_le.mp hxq
      have htail : ∀ y ∈ xs, ¬ y.position ≤ q := by
        intro y hy
        exact not_le.mpr (lt_of_lt_of_le hgt (hs.1 y hy))
      have htailnil : xs.filter (fun e => decide (e.position ≤ q)) = [] :=
        filter_decide_nil (fun e => e.position ≤ q) xs htail
      have htailcong : xs.filter (fun e => decide (q < e.position) && decide (e.position ≤ p)) =
          xs.filter (fun e => decide (e.position ≤ p)) := by
        apply List.filter_congr
        intro y hy
        have hqy : q < y.position := lt_of_lt_of_le hgt (hs.1 y hy)
        simp [hqy]
      by_cases hxp : x.position ≤ p
      · simp [List.filter_cons, hxq, hxp, hgt, htailnil, htailcong]
      · simp [List.filter_cons, hxq, hxp, hgt, htailnil, htailcong]

/-- C6: reconstruction at a position equals the full replay-from-zero
reconstruction at that position, whether or not a snapshot at or before it
exists — snapshots never change the result, provided every stored snapshot
is consistent with replay up to its own position (the spec's snapshot
invariant). -/
theorem reconstructAt_replay_equivalence (b : BranchId) (init : WorldState)
    (entries : List StoryEntry) (snaps : List Snapshot) (p : Nat)
    (hsorted : entries.Pairwise (fun a c => a.position ≤ c.position))
    (hcons : ∀ sn ∈ snaps, sn.state = replayTo b init entries sn.entryPosition) :
    reconstructAt b init entries snaps p = replayTo b init entries p := by
  unfold reconstructAt
  cases hl : latestSnapshotAtOrBefore snaps p with
  | none => rfl
  | some sn =>
    obtain ⟨hmem, hle⟩ := latestSnapshot_spec snaps p sn hl
    show (entries.filter (fun e =>
        decide (sn.entryPosition < e.position) && decide (e.position ≤ p))).foldl
      (replayStep b) sn.state = replayTo b init entries p
    rw [hcons sn hmem]
    unfold replayTo
    rw [filter_le_split sn.entryPosition p hle entries hsorted, List.foldl_append]

/-- C6 witness: the concrete reconstruction through the stored snapshot
matches the concrete replay from zero. -/
theorem reconstructAt_replay_equivalence_check :
    reconstructAt 0 ex6init ex6entries ex6snaps 2 = replayTo 0 ex6init ex6entries 2 :=
  reconstructAt_replay_equivalence 0 ex6init ex6entries ex6snaps 2 (by decide) (by decide)

/-- C9: maybeSnapshot produces a snapshot exactly when the entry position is
a multiple of the interval; the interval is configurable with default 20;
and every value the interval slider can emit — bounded below by its minimum
of 5 — is at least 5 and is stored unchanged by the handler. -/
theorem maybeSnapshot_interval_policy :
    (∀ (e : StoryEntry) (w : WorldState) (interval : Nat),
      (maybeSnapshot e w interval).isSome = true ↔ e.position % interval = 0) ∧
    defaultExperimentalFeatures.autoSnapshotInterval = 20 ∧
    (∀ (f : ExperimentalFeatures) (v : Nat), sliderEmittable v →
      (handleSnapshotIntervalChange f v).autoSnapshotInterval = v ∧
      5 ≤ (handleSnapshotIntervalChange f v).autoSnapshotInterval) := by
  refine ⟨?_, rfl, ?_⟩
  · intro e w interval
    unfold maybeSnapshot
    by_cases h : e.position % interval = 0
    · rw [if_pos h]
      simp [h]
    · rw [if_neg h]
      simp [h]
  · intro f v hv
    exact ⟨rfl, hv.1⟩

/-- C9 witness: the concrete position-40 entry fires at interval 20, and the
concrete slider value 35 is stored and respects the minimum. -/
theorem maybeSnapshot_interval_policy_check :
    ((maybeSnapshot ex9e ex9w 20).isSome = true ↔ ex9e.position % 20 = 0) ∧
      (handleSnapshotIntervalChange ex9f 35).autoSnapshotInterval = 35 ∧
      5 ≤ (handleSnapshotIntervalChange ex9f 35).autoSnapshotInterval :=
  ⟨maybeSnapshot_interval_policy.1 ex9e ex9w 20,
    (maybeSnapshot_interval_policy.2.2 ex9f 35 (by decide)).1,
    (maybeSnapshot_interval_policy.2.2 ex9f 35 (by decide)).2⟩

/-- C10: the Rollback on Delete switch and the Lightweight Branches switch
are disabled exactly when state tracking is off; the lightweight-branches
gating does not depend on rollbackOnDelete; and both toggle handlers apply
the requested value with no further precondition check. -/
theorem experimental_settings_gating :
    (∀ f : ExperimentalFeatures,
      (rollbackSwitchDisabled f = true ↔ f.stateTracking = false) ∧
      (lightweightSwitchDisabled f = true ↔ f.stateTracking = false)) ∧
    (∀ (f : ExperimentalFeatures) (r : Bool),
      lightweightSwitchDisabled { f with rollbackOnDelete := r } = lightweightSwitchDisabled f) ∧
    (∀ (f : ExperimentalFeatures) (c : Bool),
      handleLightweightBranchesToggle f c = { f with lightweightBranches := c } ∧
      handleRollbackToggle f c = { f with rollbackOnDelete := c }) := by
  refine ⟨?_, ?_, ?_⟩
  · intro f
    constructor
    · unfold rollbackSwitchDisabled
      cases f.stateTracking <;> simp
    · unfold lightweightSwitchDisabled
      cases f.stateTracking <;> simp
  · intro f r; rfl
  · intro f c; exact ⟨rfl, rfl⟩

/-- C10 witness: the concrete settings state with state tracking on leaves
both switches enabled and the handlers store the requested values. -/
theorem experimental_settings_gating_check :
    ((rollbackSwitchDisabled ex9f = true ↔ ex9f.stateTracking = false) ∧
      (lightweightSwitchDisabled ex9f = true ↔ ex9f.stateTracking = false)) ∧
      handleLightweightBranchesToggle ex9f true = { ex9f with lightweightBranches := true } :=
  ⟨experimental_settings_gating.1 ex9f,
    (experimental_settings_gating.2.2 ex9f true).1⟩

end Aventura
